import Mathlib

/-!
# RezLauncher — verification of the stage/package-collection core

Shallow embedding of the RezLauncher frontend logic (Svelte components under
`src/lib/components` and `src/routes/+page.svelte`, plus `src/lib/utils/cookies.ts`)
together with a model of the Tauri/MongoDB persistence commands
(`src-tauri/src/main.rs`, not part of the provided sources) taken from the
design document's contracts.

JavaScript strings are modelled as Lean `String`s; the JS string primitives
used by the code (`trim`, `split(';')`, `startsWith`) are given explicit
char-list implementations so that all reasoning is ordinary list reasoning.
-/

/-! ## JS string primitives -/

/-- Model of JS whitespace as recognised by `String.prototype.trim`
(restricted to the ASCII whitespace actually relevant here). -/
def jsSpace (c : Char) : Bool :=
  c = ' ' || c = '\t' || c = '\n' || c = '\r'

/-- Drop `jsSpace` characters from the right end of a char list. -/
def dropRightSpace (l : List Char) : List Char :=
  (l.reverse.dropWhile jsSpace).reverse

/-- Model of JS `String.prototype.trim` on char lists. -/
def trimChars (l : List Char) : List Char :=
  dropRightSpace (l.dropWhile jsSpace)

/-- Model of JS `String.prototype.trim`. -/
def jsTrim (s : String) : String :=
  ⟨trimChars s.data⟩

/-- Model of JS `String.prototype.split` with a single-character separator:
`"a;b".split(';') = ["a","b"]`, `"".split(';') = [""]`. -/
def splitOnChar (sep : Char) : List Char → List (List Char)
  | [] => [[]]
  | c :: rest =>
    if c = sep then [] :: splitOnChar sep rest
    else
      match splitOnChar sep rest with
      | [] => [[c]]
      | h :: t => (c :: h) :: t

/-- Model of JS `String.prototype.startsWith` on char lists
(`startsWithList l p` is true when `p` is an initial segment of `l`). -/
def startsWithList : List Char → List Char → Bool
  | _, [] => true
  | [], _ :: _ => false
  | c :: l, p :: ps => c = p && startsWithList l ps

/-! ## Data model

Stage documents as built by `BakeModal.handleSubmit` / `PushToModal.handlePush`
and stored by the backend.  The MongoDB `_id` is modelled as a `Nat` assigned
by the store at insertion time. -/

structure EnvVar where
  key : String
  value : String
deriving DecidableEq, Repr

structure Stage where
  id : Nat
  name : String
  uri : String
  from_version : String
  rxt : String
  rxt_path : String
  tools : List String
  environment_variables : List EnvVar
  created_at : String
  created_by : String
  active : Bool
deriving DecidableEq, Repr

/-- Package collection document (fields per §3 of the design document;
the frontend treats these as opaque records). -/
structure PackageCollection where
  version : String
  uri : String
  packages : List String
  herit : Option String
  tools : List String
  environment_variables : List EnvVar
  created_at : String
  created_by : String
deriving DecidableEq, Repr

/-- `d` with its `active` flag replaced by `b` (all other fields untouched). -/
def withActive (d : Stage) (b : Bool) : Stage :=
  { d with active := b }

/-- Number of stored documents named `n` that carry `active = true`. -/
def countActive (store : List Stage) (n : String) : Nat :=
  (store.filter (fun d => d.name = n && d.active)).length

/-! ## Persistence backend (spec-modelled)

The Rust command layer (`src-tauri/src/main.rs`) is not part of the provided
sources; the following operations are modelled from the design document. -/

/-- Modelled from the spec: `save_stage_to_mongodb` (Tauri command in
`src-tauri/src/main.rs`, not included in the sources). Per §4.1/§4.3 it
inserts the submitted stage document and, as part of the same logical
operation, sets `active = false` on every other stored document sharing the
target `name`.  The fresh MongoDB `_id` is modelled as `store.length`. -/
def save_stage_to_mongodb (store : List Stage) (doc : Stage) : List Stage :=
  (store.map fun d => if d.name = doc.name then withActive d false else d)
    ++ [{ doc with id := store.length }]

/-- Modelled from the spec: `revert_stage` (Tauri command in
`src-tauri/src/main.rs`, not included in the sources). Per §4.2 it looks up
the stored document with the given id; if absent it fails with a not-found
error, otherwise it sets that document's `active = true` and every other
document sharing the same `name` to `active = false`, changing nothing else. -/
def revert_stage (store : List Stage) (stageId : Nat) : Except String (List Stage) :=
  match store.find? (fun d => d.id = stageId) with
  | none => .error "Stage not found"
  | some target =>
    .ok (store.map fun d =>
      if d.name = target.name then withActive d (d.id = stageId) else d)

/-- Modelled from the spec: `get_stages_by_uri` (Tauri command in
`src-tauri/src/main.rs`, not included in the sources). Per §4.4 it returns
exactly the stage documents whose `uri` field equals the given scope. -/
def get_stages_by_uri (store : List Stage) (uri : String) : List Stage :=
  store.filter (fun d => d.uri = uri)

/-- Modelled from the spec: `get_package_collections_by_uri` (Tauri command in
`src-tauri/src/main.rs`, not included in the sources). Per §4.4 it returns
exactly the package-collection documents whose `uri` equals the given scope. -/
def get_package_collections_by_uri (store : List PackageCollection) (uri : String) :
    List PackageCollection :=
  store.filter (fun d => d.uri = uri)

/-! ## BakeModal (src/lib/components/BakeModal.svelte) -/

/-- Form state of the bake modal: the bake name field, the accumulated
environment variables, and the pending key/value inputs. -/
structure BakeModalState where
  bakeName : String
  envVars : List EnvVar
  currentEnvKey : String
  currentEnvValue : String
deriving DecidableEq, Repr

/-- In-place update of the `value` field of entry `i` (JS
`envVars[existingIndex].value = ...`). -/
def setValueAt : List EnvVar → Nat → String → List EnvVar
  | [], _, _ => []
  | v :: vs, 0, val => { v with value := val } :: vs
  | v :: vs, n + 1, val => v :: setValueAt vs n val

/-- `addEnvVar` (BakeModal.svelte lines 53–74): when both pending inputs are
non-empty after trimming, either updates the value of the existing entry with
the same (trimmed) key or appends a new entry, then clears the inputs. -/
def addEnvVar (s : BakeModalState) : BakeModalState :=
  if jsTrim s.currentEnvKey ≠ "" && jsTrim s.currentEnvValue ≠ "" then
    let envVars' :=
      match s.envVars.findIdx? (fun v => v.key = jsTrim s.currentEnvKey) with
      | some i => setValueAt s.envVars i (jsTrim s.currentEnvValue)
      | none => s.envVars ++ [⟨jsTrim s.currentEnvKey, jsTrim s.currentEnvValue⟩]
    { s with envVars := envVars', currentEnvKey := "", currentEnvValue := "" }
  else s

/-- The form data dispatched by `BakeModal.handleSubmit` on success. -/
structure BakeForm where
  name : String
  uri : String
  from_version : String
  rxt : String
  tools : List String
  environment_variables : List EnvVar
  created_at : String
  created_by : String
  active : Bool
deriving DecidableEq, Repr

/-- `handleSubmit` (BakeModal.svelte lines 82–111): rejects an empty bake name
before anything else; otherwise folds in a pending env var (the same guard as
`addEnvVar`) and produces the form data with `active = true`.  `now` stands
for `new Date().toISOString()` and `username` for the fetched current user. -/
def handleSubmit (s : BakeModalState) (packageCollectionUri packageCollectionVersion : String)
    (packageTools : List String) (now username : String) : Option BakeForm :=
  if s.bakeName = "" then none
  else
    let s' :=
      if jsTrim s.currentEnvKey ≠ "" && jsTrim s.currentEnvValue ≠ "" then addEnvVar s else s
    some
      { name := s.bakeName
        uri := packageCollectionUri
        from_version := packageCollectionVersion
        rxt := ""
        tools := packageTools
        environment_variables := s'.envVars
        created_at := now
        created_by := username
        active := true }

/-- The stage document the backend receives for a submitted bake form
(`save_stage_to_mongodb` is invoked with the dispatched form data;
`SectionPanel.handleBakeSubmit`).  The store assigns the real id. -/
def stageOfForm (f : BakeForm) : Stage :=
  { id := 0
    name := f.name
    uri := f.uri
    from_version := f.from_version
    rxt := f.rxt
    rxt_path := ""
    tools := f.tools
    environment_variables := f.environment_variables
    created_at := f.created_at
    created_by := f.created_by
    active := f.active }

/-- End-to-end bake: modal submission followed by persistence (when not
rejected).  The boolean records whether a persistence call was made. -/
def bakeStage (store : List Stage) (s : BakeModalState) (uri version : String)
    (tools : List String) (now username : String) : List Stage × Bool :=
  match handleSubmit s uri version tools now username with
  | none => (store, false)
  | some form => (save_stage_to_mongodb store (stageOfForm form), true)

/-! ## PushToModal (src/lib/components/PushToModal.svelte, current revision) -/

/-- Form state of the push modal: the dropdown selection, the free-text new
stage name, and which of the two is in use. -/
structure PushModalState where
  selectedTargetStageName : String
  newStageName : String
  useNewStageName : Bool
deriving DecidableEq, Repr

/-- The target name computed at the top of `handlePush` (line 388):
`useNewStageName ? newStageName.trim() : selectedTargetStageName`. -/
def pushTargetName (s : PushModalState) : String :=
  if s.useNewStageName then jsTrim s.newStageName else s.selectedTargetStageName

/-- `fetchInitialData` (PushToModal.svelte lines 363–381): the dropdown of
existing stage names filters out the source stage's own name. -/
def filterExistingStageNames (names : List String) (sourceName : String) : List String :=
  names.filter (fun n => n ≠ sourceName)

/-- `handlePush` (PushToModal.svelte lines 387–432): rejects an empty target
name or missing source data before any persistence call; otherwise builds the
new stage document — a copy of the source with the target name, `active =
true`, fresh `created_at`/`created_by`, `rxt` defaulted to `""` when absent,
and the `_id` removed (the store assigns a new one).  Returns the document
passed to `save_stage_to_mongodb`, or `none` when rejected. -/
def handlePush (s : PushModalState) (stageData : Option Stage) (now username : String) :
    Option Stage :=
  let targetName := pushTargetName s
  if targetName = "" then none
  else
    match stageData with
    | none => none
    | some src =>
      some { src with
              name := targetName
              active := true
              created_at := now
              created_by := username }

/-- End-to-end push: `handlePush` followed by `save_stage_to_mongodb` (when
not rejected).  The boolean records whether a persistence call was made. -/
def pushStage (store : List Stage) (s : PushModalState) (stageData : Option Stage)
    (now username : String) : List Stage × Bool :=
  match handlePush s stageData now username with
  | none => (store, false)
  | some newDoc => (save_stage_to_mongodb store newDoc, true)

/-! ## Operation sequences over the stage store -/

/-- One user-level operation affecting the stage store: a bake submission, a
push, or a revert. -/
inductive StageOp where
  | bake (s : BakeModalState) (uri version : String) (tools : List String)
      (now username : String)
  | push (s : PushModalState) (stageData : Option Stage) (now username : String)
  | revert (stageId : Nat)
deriving Repr

/-- Apply one operation to the store (failed reverts leave it unchanged,
matching `RevertModal.handleRevert`'s error path which only reports). -/
def applyOp (store : List Stage) : StageOp → List Stage
  | .bake s uri version tools now username =>
    (bakeStage store s uri version tools now username).1
  | .push s stageData now username => (pushStage store s stageData now username).1
  | .revert stageId =>
    match revert_stage store stageId with
    | .ok store' => store'
    | .error _ => store

/-- Apply a sequence of operations starting from the empty store. -/
def applyOps (ops : List StageOp) : List Stage :=
  ops.foldl applyOp []

/-! ## Listing queries at the caller (src/routes/+page.svelte) -/

/-- The display record `fetchStagesByUri` maps each stage document to
(+page.svelte lines 611–618). -/
structure StageListItem where
  name : String
  loaded : Bool
  uri : String
  from_version : String
  rxt_path : String
  tools : List String
deriving DecidableEq, Repr

/-- UI state written by `fetchStagesByUri`: the stage list and the panel
message. -/
structure StagesViewState where
  stages : List StageListItem
  stageMessage : String
deriving DecidableEq, Repr

/-- `fetchStagesByUri` (+page.svelte lines 591–632), from the point where the
`get_stages_by_uri` invocation has either produced a document list or thrown:
a non-empty list populates the panel and clears the message; an empty list
clears the panel and sets the distinct "no stages" message; a thrown error
clears the panel and sets the propagated error message. -/
def fetchStagesUpdate (currentUri : String) (result : Except String (List Stage)) :
    StagesViewState :=
  match result with
  | .ok stagesData =>
    if stagesData.length > 0 then
      { stages := stagesData.map fun stage =>
          { name := stage.name
            loaded := false
            uri := stage.uri
            from_version := stage.from_version
            rxt_path := stage.rxt_path
            tools := stage.tools }
        stageMessage := "" }
    else
      { stages := [], stageMessage := "No stages found for " ++ currentUri }
  | .error e =>
    { stages := [], stageMessage := "Error: " ++ e }

/-- The display record `fetchPackageCollectionsByUri` maps each collection to
(+page.svelte lines 511–515). -/
structure PackageListItem where
  version : String
  baked : Bool
  uri : String
deriving DecidableEq, Repr

/-- Result shape of the `get_package_collections_by_uri` command as consumed
by the caller: a success flag, an optional document list and an optional
message (absent JS fields modelled as `none`). -/
structure PcQueryResult where
  success : Bool
  collections : Option (List PackageCollection)
  message : Option String
deriving DecidableEq, Repr

/-- UI state written by `fetchPackageCollectionsByUri`. -/
structure PackagesViewState where
  packageCollections : List PackageCollection
  packages : List PackageListItem
  packageCollectionMessage : String
deriving DecidableEq, Repr

/-- `fetchPackageCollectionsByUri` (+page.svelte lines 489–533), from the
point where the invocation has either produced a result or thrown: a
successful result with a document list populates the panel and clears the
message; a successful result without one empties the panel and sets the
backend message or the default "no collection found" message; a failed result
or a thrown error only sets the error message (the lists are left as they
were). -/
def fetchPackageCollectionsUpdate (currentUri : String) (prev : PackagesViewState)
    (result : Except String PcQueryResult) : PackagesViewState :=
  match result with
  | .ok r =>
    if r.success then
      match r.collections with
      | some cs =>
        { packageCollections := cs
          packages := cs.map fun collection =>
            { version := collection.version, baked := false, uri := collection.uri }
          packageCollectionMessage := "" }
      | none =>
        { packageCollections := []
          packages := []
          packageCollectionMessage :=
            r.message.getD ("no collection found in " ++ currentUri) }
    else
      { prev with
          packageCollectionMessage := "Error: " ++ r.message.getD "undefined" }
  | .error e =>
    { prev with packageCollectionMessage := "Error: " ++ e }

/-! ## Selection handlers (src/routes/+page.svelte lines 200–259) -/

/-- A stage entry of the main page's `stages` list (selection-relevant
fields). -/
structure StgItem where
  name : String
  loaded : Bool
  active : Bool
deriving DecidableEq, Repr

/-- A package entry of the main page's `packages` list (selection-relevant
fields). -/
structure PkgItem where
  version : String
  baked : Bool
  uri : String
  active : Bool
deriving DecidableEq, Repr

/-- The page-level selection state touched by the two click handlers. -/
structure SelectionState where
  activePackage : Option String
  activeStage : Option String
  packages : List PkgItem
  stages : List StgItem
deriving DecidableEq, Repr

/-- `handlePackageClick` (+page.svelte lines 200–228): deselects any active
stage, marks exactly the clicked version active among packages, clears every
stage's active flag, and records the clicked version as the active package. -/
def handlePackageClick (st : SelectionState) (item : PkgItem) : SelectionState :=
  { activeStage := none
    packages := st.packages.map fun pkg => { pkg with active := pkg.version = item.version }
    stages := st.stages.map fun stage => { stage with active := false }
    activePackage := some item.version }

/-- `handleStageClick` (+page.svelte lines 230–259): deselects any active
package, marks exactly the clicked name active among stages, clears every
package's active flag, and records the clicked name as the active stage. -/
def handleStageClick (st : SelectionState) (item : StgItem) : SelectionState :=
  { activePackage := none
    stages := st.stages.map fun stage => { stage with active := stage.name = item.name }
    packages := st.packages.map fun pkg => { pkg with active := false }
    activeStage := some item.name }

/-- One selection action. -/
inductive SelClick where
  | pkg (item : PkgItem)
  | stg (item : StgItem)
deriving Repr

/-- Apply a selection action. -/
def applyClick (st : SelectionState) : SelClick → SelectionState
  | .pkg item => handlePackageClick st item
  | .stg item => handleStageClick st item

/-! ## Percent-encoding (model of JS `encodeURIComponent` / `decodeURIComponent`)

`encodeURIComponent` leaves the unreserved characters
`A–Z a–z 0–9 - _ . ! ~ * ' ( )` as they are and replaces every other
character by the `%HH` (uppercase hex) encoding of each byte of its UTF-8
representation.  `decodeURIComponent` reverses this; its `URIError` on
malformed input is modelled as `none`. -/

/-- The characters `encodeURIComponent` leaves unescaped:
`A`–`Z` (65–90), `a`–`z` (97–122), `0`–`9` (48–57), and the marks
`- _ . ! ~ * ' ( )` (codes 45, 95, 46, 33, 126, 42, 39, 40, 41). -/
def isUriUnreserved (c : Char) : Bool :=
  decide ((65 ≤ c.toNat ∧ c.toNat ≤ 90) ∨ (97 ≤ c.toNat ∧ c.toNat ≤ 122) ∨
    (48 ≤ c.toNat ∧ c.toNat ≤ 57) ∨
    c.toNat ∈ [45, 95, 46, 33, 126, 42, 39, 40, 41])

/-- UTF-8 bytes of one code point. -/
def utf8Bytes (c : Char) : List Nat :=
  let n := c.toNat
  if n < 0x80 then [n]
  else if n < 0x800 then [0xC0 + n / 64, 0x80 + n % 64]
  else if n < 0x10000 then
    [0xE0 + n / 4096, 0x80 + n / 64 % 64, 0x80 + n % 64]
  else
    [0xF0 + n / 262144, 0x80 + n / 4096 % 64, 0x80 + n / 64 % 64, 0x80 + n % 64]

/-- Uppercase hex digits. -/
def hexDigits : List Char :=
  ['0', '1', '2', '3', '4', '5', '6', '7', '8', '9', 'A', 'B', 'C', 'D', 'E', 'F']

/-- The hex digit for `n < 16`. -/
def hexDigit (n : Nat) : Char :=
  hexDigits.getD n 'X'

/-- `%HH` encoding of one byte. -/
def percentByte (b : Nat) : List Char :=
  ['%', hexDigit (b / 16), hexDigit (b % 16)]

/-- Encoding of one character. -/
def encodeChar (c : Char) : List Char :=
  if isUriUnreserved c then [c]
  else ((utf8Bytes c).map percentByte).flatten

/-- `encodeURIComponent` on char lists. -/
def encodeList (l : List Char) : List Char :=
  (l.map encodeChar).flatten

/-- Model of JS `encodeURIComponent`. -/
def encodeURIComponent (s : String) : String :=
  ⟨encodeList s.data⟩

/-- Numeric value of a hex digit (upper- or lowercase). -/
def hexVal (c : Char) : Option Nat :=
  let n := c.toNat
  if 48 ≤ n ∧ n ≤ 57 then some (n - 48)
  else if 65 ≤ n ∧ n ≤ 70 then some (n - 55)
  else if 97 ≤ n ∧ n ≤ 102 then some (n - 87)
  else none

/-- First decoding pass: turn the encoded text back into a byte sequence
(`%HH` becomes the byte `HH`, any other character stands for itself; a `%`
not followed by two hex digits is the `URIError` case). -/
def collectBytes : List Char → Option (List Nat)
  | [] => some []
  | c :: rest =>
    if c = '%' then
      if 2 ≤ rest.length then
        match hexVal (rest.getD 0 '0'), hexVal (rest.getD 1 '0') with
        | some a, some b => (collectBytes (rest.drop 2)).map ((16 * a + b) :: ·)
        | _, _ => none
      else none
    else (collectBytes rest).map (c.toNat :: ·)
termination_by l => l.length
decreasing_by
  all_goals simp [List.length_drop]
  all_goals omega

/-- Second decoding pass: UTF-8 decoding of the byte sequence (continuation
bytes are read off the front of the remaining list). -/
def utf8Decode : List Nat → Option (List Char)
  | [] => some []
  | b0 :: rest =>
    if b0 < 0x80 then (utf8Decode rest).map (Char.ofNat b0 :: ·)
    else if 0xC0 ≤ b0 ∧ b0 < 0xE0 then
      if 1 ≤ rest.length ∧ 0x80 ≤ rest.getD 0 0 ∧ rest.getD 0 0 < 0xC0 then
        (utf8Decode (rest.drop 1)).map
          (Char.ofNat ((b0 - 0xC0) * 64 + (rest.getD 0 0 - 0x80)) :: ·)
      else none
    else if 0xE0 ≤ b0 ∧ b0 < 0xF0 then
      if 2 ≤ rest.length ∧ (0x80 ≤ rest.getD 0 0 ∧ rest.getD 0 0 < 0xC0)
          ∧ (0x80 ≤ rest.getD 1 0 ∧ rest.getD 1 0 < 0xC0) then
        (utf8Decode (rest.drop 2)).map
          (Char.ofNat ((b0 - 0xE0) * 4096 + (rest.getD 0 0 - 0x80) * 64
            + (rest.getD 1 0 - 0x80)) :: ·)
      else none
    else if 0xF0 ≤ b0 ∧ b0 < 0xF8 then
      if 3 ≤ rest.length ∧ (0x80 ≤ rest.getD 0 0 ∧ rest.getD 0 0 < 0xC0)
          ∧ (0x80 ≤ rest.getD 1 0 ∧ rest.getD 1 0 < 0xC0)
          ∧ (0x80 ≤ rest.getD 2 0 ∧ rest.getD 2 0 < 0xC0) then
        (utf8Decode (rest.drop 3)).map
          (Char.ofNat ((b0 - 0xF0) * 262144 + (rest.getD 0 0 - 0x80) * 4096
            + (rest.getD 1 0 - 0x80) * 64 + (rest.getD 2 0 - 0x80)) :: ·)
      else none
    else none
termination_by l => l.length
decreasing_by
  all_goals simp [List.length_drop]
  all_goals omega

/-- `decodeURIComponent` on char lists (`none` models the `URIError`). -/
def decodeList (l : List Char) : Option (List Char) :=
  (collectBytes l).bind utf8Decode

/-- Model of JS `decodeURIComponent`. -/
def decodeURIComponent (s : String) : Option String :=
  (decodeList s.data).map List.asString

/-! ## Cookies (src/lib/utils/cookies.ts)

The browser cookie jar behind `document.cookie` is modelled as an ordered
association list of (name, value) pairs.  Reading `document.cookie` renders
the jar as `"n1=v1; n2=v2"`; assigning to it parses the set-cookie string up
to the first `;`, splits at the first `=`, trims both sides (RFC 6265
parsing) and inserts or replaces the entry.  Expiration dates are not
modelled (the `expires` argument abstracts the computed date string); a
cookie written with `days > 0` is simply present. -/

/-- Insert or replace the entry for `n` (first occurrence), keeping order. -/
def jarUpsert : List (String × String) → String → String → List (String × String)
  | [], n, v => [(n, v)]
  | (n0, v0) :: rest, n, v =>
    if n0 = n then (n0, v) :: rest else (n0, v0) :: jarUpsert rest n v

/-- The string produced by reading `document.cookie`. -/
def renderJar : List (String × String) → String
  | [] => ""
  | [(n, v)] => n ++ "=" ++ v
  | (n, v) :: rest => n ++ "=" ++ v ++ "; " ++ renderJar rest

/-- The browser's handling of an assignment to `document.cookie`. -/
def browserSetCookie (jar : List (String × String)) (setStr : String) :
    List (String × String) :=
  let pair := (splitOnChar ';' setStr.data).headD []
  let nm := trimChars (pair.takeWhile (· ≠ '='))
  let vl := trimChars ((pair.dropWhile (· ≠ '=')).drop 1)
  jarUpsert jar nm.asString vl.asString

/-- `setCookie` (cookies.ts lines 26–31): assigns
`name + "=" + encodeURIComponent(value) + ";" + expires + ";path=/"` to
`document.cookie`. -/
def setCookie (jar : List (String × String)) (name value : String) (expires : String) :
    List (String × String) :=
  browserSetCookie jar (name ++ "=" ++ encodeURIComponent value ++ ";" ++ expires ++ ";path=/")

/-- `getCookie` (cookies.ts lines 6–18): splits `document.cookie` on `;`,
trims each piece, and on the first piece starting with `name + "="` returns
the decoded remainder (`substring(name.length + 1)`); otherwise `null`. -/
def getCookie (name : String) (cookieStr : String) : Option String :=
  match (splitOnChar ';' cookieStr.data).find?
      (fun c => startsWithList (trimChars c) (name.data ++ ['='])) with
  | some c => (decodeList ((trimChars c).drop (name.data.length + 1))).map List.asString
  | none => none

/-- Well-formedness of one jar entry: the name is trimmed and free of `=` and
`;`; the value is free of `;` and carries no surrounding whitespace. -/
def WfEntry (e : String × String) : Prop :=
  trimChars e.1.data = e.1.data ∧ '=' ∉ e.1.data ∧ ';' ∉ e.1.data ∧
    ';' ∉ e.2.data ∧ trimChars e.2.data = e.2.data

instance (e : String × String) : Decidable (WfEntry e) := by
  unfold WfEntry; infer_instance

/-! ## Environment-variable sequences (for the key-uniqueness invariant) -/

/-- Typing a key/value pair into the two inputs and pressing "add"
(`addEnvVar`). -/
def typeAndAdd (s : BakeModalState) (kv : String × String) : BakeModalState :=
  addEnvVar { s with currentEnvKey := kv.1, currentEnvValue := kv.2 }

/-- The modal state after a sequence of add interactions, starting from the
freshly opened modal (empty form). -/
def applyEnvOps (ops : List (String × String)) : BakeModalState :=
  ops.foldl typeAndAdd ⟨"", [], "", ""⟩

/-- The value stored under key `k` (first, hence unique, occurrence). -/
def lookupKey (vars : List EnvVar) (k : String) : Option String :=
  (vars.find? (fun v => v.key = k)).map (·.value)

/-! # Theorems -/

/-! ## Shared helper lemmas -/

/-- The head character of a string built by appending to a literal. -/
theorem data_head_append (c : Char) (l : List Char) (s : String) :
    ((String.mk (c :: l)) ++ s).data.head? = some c := by
  obtain ⟨sd⟩ := s
  rfl

/-- Two appends whose left parts start with different characters differ. -/
theorem append_ne_append_of_head (c d : Char) (l m : List Char) (s t : String)
    (h : c ≠ d) : (String.mk (c :: l)) ++ s ≠ (String.mk (d :: m)) ++ t := by
  intro he
  have h2 := congrArg (fun x => x.data.head?) he
  simp only [data_head_append] at h2
  exact h (Option.some.inj h2)

/-! ## C6 — listing queries match the URI scope exactly -/

/-- C6: for every URI scope `U`, the listing queries return exactly the
stage and package-collection documents whose `uri` equals `U`; membership in
the result is equivalent to membership in the store with `uri = U`, so no
document with any other `uri` (in particular a proper prefix or extension of
`U`) is ever returned. -/
theorem uri_queries_exact_match (stageStore : List Stage)
    (pcStore : List PackageCollection) (U : String) (d : Stage)
    (c : PackageCollection) :
    (d ∈ get_stages_by_uri stageStore U ↔ d ∈ stageStore ∧ d.uri = U) ∧
    (c ∈ get_package_collections_by_uri pcStore U ↔ c ∈ pcStore ∧ c.uri = U) := by
  constructor
  · simp [get_stages_by_uri, List.mem_filter]
  · simp [get_package_collections_by_uri, List.mem_filter]

/-! ## C7 — empty result and query failure are distinguished -/

/-- C7: an empty listing result is not an error: it produces the distinct
"no items" message, while a query failure produces the propagated
`Error: ...` message, and the two resulting states are never equal — for the
stage panel and for the package-collection panel alike. -/
theorem empty_result_ne_error (uri err : String) (prev : PackagesViewState) :
    fetchStagesUpdate uri (.ok []) =
      { stages := [], stageMessage := "No stages found for " ++ uri } ∧
    fetchStagesUpdate uri (.error err) =
      { stages := [], stageMessage := "Error: " ++ err } ∧
    fetchStagesUpdate uri (.ok []) ≠ fetchStagesUpdate uri (.error err) ∧
    (fetchPackageCollectionsUpdate uri prev
        (.ok { success := true, collections := none, message := none
             })).packageCollectionMessage = "no collection found in " ++ uri ∧
    (fetchPackageCollectionsUpdate uri prev (.error err)).packageCollectionMessage
      = "Error: " ++ err ∧
    ("no collection found in " ++ uri : String) ≠ "Error: " ++ err := by
  refine ⟨rfl, rfl, ?_, rfl, rfl, ?_⟩
  · intro he
    have h2 := congrArg StagesViewState.stageMessage he
    exact append_ne_append_of_head 'N' 'E' "o stages found for ".data "rror: ".data
      uri err (by decide) h2
  · exact append_ne_append_of_head 'n' 'E' "o collection found in ".data "rror: ".data
      uri err (by decide)

/-! ## C10 — package selection and stage selection are mutually exclusive -/

/-- C10: after every selection action, at most one of `activePackage` and
`activeStage` is non-null: selecting a package collection clears the active
stage and every stage's active flag, and selecting a stage clears the active
package and every package's active flag. -/
theorem selection_mutually_exclusive (st : SelectionState) (pi : PkgItem)
    (si : StgItem) (click : SelClick) :
    (handlePackageClick st pi).activeStage = none ∧
    (handlePackageClick st pi).stages.all (fun t => !t.active) = true ∧
    (handlePackageClick st pi).activePackage = some pi.version ∧
    (handleStageClick st si).activePackage = none ∧
    (handleStageClick st si).packages.all (fun p => !p.active) = true ∧
    (handleStageClick st si).activeStage = some si.name ∧
    ¬((applyClick st click).activePackage.isSome ∧
        (applyClick st click).activeStage.isSome) := by
  refine ⟨rfl, ?_, rfl, rfl, ?_, rfl, ?_⟩
  · simp [handlePackageClick, List.all_map, Function.comp]
  · simp [handleStageClick, List.all_map, Function.comp]
  · cases click with
    | pkg item => simp [applyClick, handlePackageClick]
    | stg item => simp [applyClick, handleStageClick]

/-! ## C4 — empty names are rejected before persistence -/

/-- C4: a bake submission with an empty bake name and a push with an empty
(or unselected) target name are rejected before any persistence call — the
modal produces no document and the store is returned unchanged with no
persistence call made. -/
theorem empty_name_rejected (s : BakeModalState) (ps : PushModalState)
    (store : List Stage) (uri version : String) (tools : List String)
    (now username : String) (src : Option Stage)
    (hb : s.bakeName = "") (hp : pushTargetName ps = "") :
    handleSubmit s uri version tools now username = none ∧
    bakeStage store s uri version tools now username = (store, false) ∧
    handlePush ps src now username = none ∧
    pushStage store ps src now username = (store, false) := by
  refine ⟨?_, ?_, ?_, ?_⟩
  · simp [handleSubmit, hb]
  · simp [bakeStage, handleSubmit, hb]
  · simp [handlePush, hp]
  · simp [pushStage, handlePush, hp]

/-- Witness for C4 at a concrete rejected bake and push. -/
theorem empty_name_rejected_witness :
    handleSubmit ⟨"", [], "", ""⟩ "/proj/char" "1.0.0" [] "t" "u" = none ∧
    bakeStage [] ⟨"", [], "", ""⟩ "/proj/char" "1.0.0" [] "t" "u" = ([], false) ∧
    handlePush ⟨"", "", false⟩ none "t" "u" = none ∧
    pushStage [] ⟨"", "", false⟩ none "t" "u" = ([], false) :=
  empty_name_rejected ⟨"", [], "", ""⟩ ⟨"", "", false⟩ [] "/proj/char" "1.0.0" []
    "t" "u" none rfl rfl

/-! ## C5 — pushing to the source's own name -/

/-- C5 counterexample: the push modal's existing-stage dropdown *does*
exclude the source stage's own name — `fetchInitialData` filters it out of
the selectable names, so the claim that the operation "does not reject or
exclude the source's own name as a target" fails for the existing-name
path. -/
theorem push_dropdown_excludes_source :
    filterExistingStageNames ["dev", "prod"] "dev" = ["prod"] ∧
    "dev" ∉ filterExistingStageNames ["dev", "prod"] "dev" := by
  decide

/-- C5 amended: `handlePush` itself never rejects a target name equal to the
source's own name — entered through the new-stage-name path it creates a new
version of the same stage (a document under the same name, active, copying
the source's configuration), equivalent to a manual re-bake; only the
existing-stage dropdown excludes the source's own name from its choices. -/
theorem push_own_name_permitted (src : Stage) (now username : String)
    (names : List String) (h : jsTrim src.name = src.name) (hne : src.name ≠ "") :
    (∃ d, handlePush ⟨"", src.name, true⟩ (some src) now username = some d ∧
        d.name = src.name ∧ d.active = true ∧ d.from_version = src.from_version ∧
        d.tools = src.tools ∧
        (pushStage [] ⟨"", src.name, true⟩ (some src) now username).1 =
          [{ d with id := 0 }]) ∧
    src.name ∉ filterExistingStageNames names src.name := by
  have htn : pushTargetName ⟨"", src.name, true⟩ = src.name := h
  constructor
  · refine ⟨{ src with
        name := pushTargetName ⟨"", src.name, true⟩
        active := true
        created_at := now
        created_by := username }, ?_, ?_, rfl, rfl, rfl, ?_⟩
    · simp [handlePush, htn, hne]
    · simp [htn]
    · simp [pushStage, handlePush, htn, hne, save_stage_to_mongodb]
  · simp [filterExistingStageNames]

/-- Witness for the amended C5 at a concrete source stage. -/
theorem push_own_name_permitted_witness :
    (∃ d, handlePush ⟨"", "dev", true⟩
          (some ⟨0, "dev", "/a", "1.0", "", "", ["t1"], [], "t0", "u", true⟩) "t1" "u2"
        = some d ∧
        d.name = "dev" ∧ d.active = true ∧ d.from_version = "1.0" ∧
        d.tools = ["t1"] ∧
        (pushStage [] ⟨"", "dev", true⟩
            (some ⟨0, "dev", "/a", "1.0", "", "", ["t1"], [], "t0", "u", true⟩)
            "t1" "u2").1 = [{ d with id := 0 }]) ∧
    "dev" ∉ filterExistingStageNames ["dev", "staging"] "dev" :=
  push_own_name_permitted ⟨0, "dev", "/a", "1.0", "", "", ["t1"], [], "t0", "u", true⟩
    "t1" "u2" ["dev", "staging"] (by decide) (by decide)

/-! ## C3 — push copies the source configuration -/

/-- C3 counterexample: when the target name equals the source's own name
(permitted, cf. the push contract), the persistence step deactivates every
prior document under the target name — including the source's own stored
document, whose `active` flag is cleared.  So "S's own stored document is
not modified by the operation" fails as stated: after pushing `dev` onto
itself, the stored source document is no longer the original document. -/
theorem push_modifies_source_counterexample :
    (pushStage [⟨0, "dev", "/a", "1.0", "", "", [], [], "t0", "u", true⟩]
          ⟨"", "dev", true⟩
          (some ⟨0, "dev", "/a", "1.0", "", "", [], [], "t0", "u", true⟩)
          "t1" "u2").1.head? ≠
      some ⟨0, "dev", "/a", "1.0", "", "", [], [], "t0", "u", true⟩ := by
  decide

/-- C3 amended: a push with a non-empty target name `N` creates exactly one
new document under `N` — its configuration fields (`uri`, `from_version`,
`rxt`, `rxt_path`, `tools`, `environment_variables`) equal the source's,
`created_at`/`created_by` are freshly stamped and `active` is true — and the
stored documents are otherwise changed only by clearing the `active` flag of
documents named `N`; every stored document whose name differs from `N`
(in particular the source's own document whenever `N` is not the source's
name) is left entirely unchanged. -/
theorem push_creates_copy (store : List Stage) (src : Stage) (ps : PushModalState)
    (now username : String) (h : pushTargetName ps ≠ "") :
    ∃ d, handlePush ps (some src) now username = some d ∧
      d.name = pushTargetName ps ∧ d.active = true ∧
      d.created_at = now ∧ d.created_by = username ∧
      d.uri = src.uri ∧ d.from_version = src.from_version ∧ d.rxt = src.rxt ∧
      d.rxt_path = src.rxt_path ∧ d.tools = src.tools ∧
      d.environment_variables = src.environment_variables ∧
      (pushStage store ps (some src) now username).1 =
        (store.map fun e =>
            if e.name = pushTargetName ps then withActive e false else e)
          ++ [{ d with id := store.length }] ∧
      (pushStage store ps (some src) now username).1.length = store.length + 1 ∧
      (∀ e ∈ store, e.name ≠ pushTargetName ps →
        e ∈ (pushStage store ps (some src) now username).1) := by
  have hh : handlePush ps (some src) now username =
      some { src with
              name := pushTargetName ps
              active := true
              created_at := now
              created_by := username } := by
    simp [handlePush, h]
  refine ⟨_, hh, rfl, rfl, rfl, rfl, rfl, rfl, rfl, rfl, rfl, rfl, ?_, ?_, ?_⟩
  · simp [pushStage, hh, save_stage_to_mongodb]
  · simp [pushStage, hh, save_stage_to_mongodb]
  · intro e he hne
    simp only [pushStage, hh, save_stage_to_mongodb]
    exact List.mem_append_left _ (List.mem_map.mpr ⟨e, he, by simp [hne]⟩)

/-- Witness for the amended C3 at a concrete push. -/
theorem push_creates_copy_witness :
    ∃ d, handlePush ⟨"staging", "", false⟩
          (some ⟨0, "dev", "/a", "1.0", "r", "rp", ["t1"], [⟨"K", "V"⟩], "t0", "u", true⟩)
          "t1" "u2" = some d ∧
      d.name = pushTargetName ⟨"staging", "", false⟩ ∧ d.active = true ∧
      d.created_at = "t1" ∧ d.created_by = "u2" ∧
      d.uri = "/a" ∧ d.from_version = "1.0" ∧ d.rxt = "r" ∧
      d.rxt_path = "rp" ∧ d.tools = ["t1"] ∧
      d.environment_variables = [⟨"K", "V"⟩] ∧
      (pushStage [] ⟨"staging", "", false⟩
          (some ⟨0, "dev", "/a", "1.0", "r", "rp", ["t1"], [⟨"K", "V"⟩], "t0", "u", true⟩)
          "t1" "u2").1 =
        ([] : List Stage).map (fun e =>
            if e.name = pushTargetName ⟨"staging", "", false⟩ then withActive e false else e)
          ++ [{ d with id := 0 }] ∧
      (pushStage [] ⟨"staging", "", false⟩
          (some ⟨0, "dev", "/a", "1.0", "r", "rp", ["t1"], [⟨"K", "V"⟩], "t0", "u", true⟩)
          "t1" "u2").1.length = 0 + 1 ∧
      (∀ e ∈ ([] : List Stage), e.name ≠ pushTargetName ⟨"staging", "", false⟩ →
        e ∈ (pushStage [] ⟨"staging", "", false⟩
            (some ⟨0, "dev", "/a", "1.0", "r", "rp", ["t1"], [⟨"K", "V"⟩], "t0", "u", true⟩)
            "t1" "u2").1) :=
  push_creates_copy []
    ⟨0, "dev", "/a", "1.0", "r", "rp", ["t1"], [⟨"K", "V"⟩], "t0", "u", true⟩
    ⟨"staging", "", false⟩ "t1" "u2" (by decide)

/-! ## C2 — revert is a pure reactivation -/

/-- C2: a revert identified by a stored stage id creates no new document and
changes no field other than `active`: the result store has the same length
and, position by position, each document equals the original in every field
but `active`; the identified document becomes active, every other document
sharing its name becomes inactive, and documents with other names keep their
`active` flag. -/
theorem revert_pure_reactivation (store : List Stage) (stageId : Nat)
    (target : Stage) (hfind : store.find? (fun d => d.id = stageId) = some target)
    (hids : (store.map (·.id)).Nodup) :
    ∃ store', revert_stage store stageId = .ok store' ∧
      store'.length = store.length ∧
      List.Forall₂ (fun d d' =>
        withActive d' false = withActive d false ∧
        (d.id = stageId → d'.active = true) ∧
        (d.name = target.name → d.id ≠ stageId → d'.active = false) ∧
        (d.name ≠ target.name → d'.active = d.active)) store store' := by
  have htid : target.id = stageId := by
    simpa using List.find?_some hfind
  have htmem : target ∈ store := List.mem_of_find?_eq_some hfind
  refine ⟨_, by rw [revert_stage, hfind], by simp, ?_⟩
  rw [List.forall₂_map_right_iff]
  refine List.forall₂_same.mpr fun d hd => ?_
  by_cases hname : d.name = target.name
  · refine ⟨by simp [hname, withActive], ?_, ?_, ?_⟩
    · intro hid
      simp [hname, withActive, hid]
    · intro _ hid
      simp [hname, withActive, hid]
    · intro hn
      exact absurd hname hn
  · have hid : d.id ≠ stageId := by
      intro hid
      exact hname (congrArg Stage.name
        (List.inj_on_of_nodup_map hids hd htmem (hid.trans htid.symm)))
    refine ⟨by simp [hname], ?_, ?_, ?_⟩
    · intro h
      exact absurd h hid
    · intro hn
      exact absurd hn hname
    · intro _
      simp [hname]

/-- Witness for C2 on a concrete two-version history: reverting to the first
document of `dev` reactivates it and deactivates its sibling. -/
theorem revert_pure_reactivation_witness :
    ∃ store', revert_stage
        [⟨0, "dev", "/a", "1.0", "", "", [], [], "t0", "u", false⟩,
         ⟨1, "dev", "/a", "1.1", "", "", [], [], "t1", "u", true⟩] 0 = .ok store' ∧
      store'.length = ([⟨0, "dev", "/a", "1.0", "", "", [], [], "t0", "u", false⟩,
         ⟨1, "dev", "/a", "1.1", "", "", [], [], "t1", "u", true⟩] : List Stage).length ∧
      List.Forall₂ (fun d d' =>
        withActive d' false = withActive d false ∧
        (d.id = 0 → d'.active = true) ∧
        (d.name = Stage.name ⟨0, "dev", "/a", "1.0", "", "", [], [], "t0", "u", false⟩ →
          d.id ≠ 0 → d'.active = false) ∧
        (d.name ≠ Stage.name ⟨0, "dev", "/a", "1.0", "", "", [], [], "t0", "u", false⟩ →
          d'.active = d.active))
        [⟨0, "dev", "/a", "1.0", "", "", [], [], "t0", "u", false⟩,
         ⟨1, "dev", "/a", "1.1", "", "", [], [], "t1", "u", true⟩] store' :=
  revert_pure_reactivation
    [⟨0, "dev", "/a", "1.0", "", "", [], [], "t0", "u", false⟩,
     ⟨1, "dev", "/a", "1.1", "", "", [], [], "t1", "u", true⟩] 0
    ⟨0, "dev", "/a", "1.0", "", "", [], [], "t0", "u", false⟩ (by decide) (by decide)

/-! ## C8 — env-var keys are unique, last write wins -/

/-- `setValueAt` leaves every key unchanged. -/
theorem setValueAt_map_key (l : List EnvVar) (i : Nat) (val : String) :
    (setValueAt l i val).map (·.key) = l.map (·.key) := by
  induction l generalizing i with
  | nil => rfl
  | cons v vs ih =>
    cases i with
    | zero => simp [setValueAt]
    | succ n => simp [setValueAt, ih]

/-- A failed `findIdx?` means no element satisfies the predicate. -/
theorem not_of_findIdx_none {α : Type} (p : α → Bool) (l : List α)
    (h : l.findIdx? p = none) : ∀ x ∈ l, p x = false := by
  intro x hx
  have h2 := List.findIdx?_eq_none_iff.mp h x hx
  simpa using h2

/-- On non-empty trimmed inputs, `addEnvVar` performs the update-or-append
step on the env-var list. -/
theorem addEnvVar_envVars_update (s : BakeModalState)
    (hk : jsTrim s.currentEnvKey ≠ "") (hv : jsTrim s.currentEnvValue ≠ "") :
    (addEnvVar s).envVars =
      match s.envVars.findIdx? (fun v => v.key = jsTrim s.currentEnvKey) with
      | some i => setValueAt s.envVars i (jsTrim s.currentEnvValue)
      | none => s.envVars ++ [⟨jsTrim s.currentEnvKey, jsTrim s.currentEnvValue⟩] := by
  rw [addEnvVar]
  rw [if_pos (by simp [hk, hv])]

/-- `addEnvVar` preserves key uniqueness. -/
theorem addEnvVar_keys_nodup (s : BakeModalState)
    (h : (s.envVars.map (·.key)).Nodup) :
    ((addEnvVar s).envVars.map (·.key)).Nodup := by
  by_cases hg : jsTrim s.currentEnvKey ≠ "" ∧ jsTrim s.currentEnvValue ≠ ""
  · rw [addEnvVar_envVars_update s hg.1 hg.2]
    cases hidx : s.envVars.findIdx? (fun v => v.key = jsTrim s.currentEnvKey) with
    | some i => simpa [setValueAt_map_key] using h
    | none =>
      have hnone := not_of_findIdx_none _ _ hidx
      simp only [List.map_append, List.map_cons, List.map_nil]
      rw [List.nodup_append]
      refine ⟨h, List.nodup_singleton _, ?_⟩
      intro k hk hk1
      simp only [List.mem_cons, List.not_mem_nil, or_false] at hk1
      obtain ⟨v, hvmem, hkey⟩ := List.mem_map.mp hk
      have := hnone v hvmem
      simp [hkey, hk1] at this
  · rw [addEnvVar, if_neg (by simpa [Decidable.not_and_iff_or_not] using hg)]
    exact h

/-- After updating the entry found at the first matching index, lookup
returns the new value. -/
theorem lookupKey_setValueAt (l : List EnvVar) (κ val : String) (i : Nat)
    (h : l.findIdx? (fun v => v.key = κ) = some i) :
    lookupKey (setValueAt l i val) κ = some val := by
  induction l generalizing i with
  | nil => simp [List.findIdx?] at h
  | cons v vs ih =>
    rw [List.findIdx?_cons] at h
    by_cases hv : v.key = κ
    · have h0 : i = 0 := by
        rw [if_pos (by simp [hv])] at h
        exact (Option.some.inj h).symm
      subst h0
      simp [setValueAt, lookupKey, List.find?, hv]
    · rw [if_neg (by simp [hv])] at h
      rw [List.findIdx?_succ] at h
      rw [Option.map_eq_some'] at h
      obtain ⟨j, hj, hij⟩ := h
      subst hij
      simp only [setValueAt, lookupKey, List.find?, decide_eq_false hv]
      exact ih j hj

/-- Typing a fresh key/value pair and adding it makes the trimmed value
retrievable under the trimmed key. -/
theorem lookupKey_typeAndAdd (s : BakeModalState) (k v : String)
    (hk : jsTrim k ≠ "") (hv : jsTrim v ≠ "") :
    lookupKey (typeAndAdd s (k, v)).envVars (jsTrim k) = some (jsTrim v) := by
  rw [typeAndAdd]
  rw [addEnvVar_envVars_update _ (by simpa using hk) (by simpa using hv)]
  cases hidx : s.envVars.findIdx? (fun x => x.key = jsTrim k) with
  | some i =>
    simpa using lookupKey_setValueAt s.envVars (jsTrim k) (jsTrim v) i hidx
  | none =>
    have hnone := not_of_findIdx_none _ _ hidx
    have hfind : s.envVars.find? (fun x => x.key = jsTrim k) = none := by
      rw [List.find?_eq_none]
      intro x hx
      simp [hnone x hx]
    simp [lookupKey, List.find?_append, hfind, List.find?]

/-- C8: across every sequence of add interactions the env-var list contains
each key at most once (adding an existing key updates the entry in place),
and the entry for the key of the final add carries that add's (trimmed)
value — last write wins. -/
theorem env_keys_unique_last_write_wins (ops : List (String × String))
    (k v : String) (hk : jsTrim k ≠ "") (hv : jsTrim v ≠ "") :
    ((applyEnvOps ops).envVars.map (·.key)).Nodup ∧
    lookupKey (applyEnvOps (ops ++ [(k, v)])).envVars (jsTrim k)
      = some (jsTrim v) := by
  constructor
  · rw [applyEnvOps]
    have hfold : ∀ (s : BakeModalState), (s.envVars.map (·.key)).Nodup →
        ((ops.foldl typeAndAdd s).envVars.map (·.key)).Nodup := by
      induction ops with
      | nil => intro s hs; exact hs
      | cons op rest ih =>
        intro s hs
        exact ih _ (addEnvVar_keys_nodup _ hs)
    exact hfold ⟨"", [], "", ""⟩ (by simp)
  · rw [applyEnvOps, List.foldl_append]
    exact lookupKey_typeAndAdd _ k v hk hv

/-- Witness for C8 on a concrete interaction sequence: re-adding key `A`
overwrites its value. -/
theorem env_keys_unique_witness :
    ((applyEnvOps [("A", "1"), ("B", "2")]).envVars.map (·.key)).Nodup ∧
    lookupKey (applyEnvOps ([("A", "1"), ("B", "2")] ++ [(" A ", " 3 ")])).envVars
        (jsTrim " A ") = some (jsTrim " 3 ") :=
  env_keys_unique_last_write_wins [("A", "1"), ("B", "2")] " A " " 3 "
    (by decide) (by decide)

/-! ## C1 — at most one active document per stage name -/

/-- Active counts split over appends. -/
theorem countActive_append (a b : List Stage) (n : String) :
    countActive (a ++ b) n = countActive a n + countActive b n := by
  simp [countActive, List.filter_append]

/-- Deactivating every document named `nm` leaves no active document named
`nm`. -/
theorem countActive_deact_self (store : List Stage) (nm : String) :
    countActive
      (store.map fun d => if d.name = nm then withActive d false else d) nm = 0 := by
  induction store with
  | nil => rfl
  | cons d ds ih =>
    by_cases hd : d.name = nm
    · simpa [countActive, List.filter_cons, hd, withActive] using ih
    · simpa [countActive, List.filter_cons, hd] using ih

/-- Deactivating the documents named `nm` does not change the active count
of any other name. -/
theorem countActive_deact_ne (store : List Stage) (nm n : String) (h : n ≠ nm) :
    countActive (store.map fun d => if d.name = nm then withActive d false else d) n
      = countActive store n := by
  induction store with
  | nil => rfl
  | cons d ds ih =>
    simp only [countActive, List.map_cons, List.filter_cons] at ih ⊢
    by_cases hd : d.name = nm
    · have hdn : ¬(d.name = n) := by rw [hd]; exact fun he => h he.symm
      have hnm : ¬(nm = n) := fun he => h he.symm
      simp only [withActive] at ih
      simpa [hd, withActive, hdn, hnm] using ih
    · simp only [if_neg hd]
      split
      · simp [ih]
      · exact ih

/-- Saving a stage preserves the at-most-one-active bound for every name. -/
theorem countActive_save (store : List Stage) (doc : Stage) (n : String)
    (h : countActive store n ≤ 1) :
    countActive (save_stage_to_mongodb store doc) n ≤ 1 := by
  rw [save_stage_to_mongodb, countActive_append]
  by_cases hn : n = doc.name
  · subst hn
    rw [countActive_deact_self]
    simp only [countActive, List.filter_cons, List.filter_nil]
    by_cases ha : doc.active <;> simp [ha]
  · rw [countActive_deact_ne _ _ _ hn]
    have hnew : countActive [{ doc with id := store.length }] n = 0 := by
      simp [countActive, List.filter_cons, Ne.symm hn]
    omega

/-- The ids stored by a save are the old ids followed by the fresh one. -/
theorem map_id_save (store : List Stage) (doc : Stage) :
    (save_stage_to_mongodb store doc).map (·.id)
      = store.map (·.id) ++ [store.length] := by
  rw [save_stage_to_mongodb]
  simp only [List.map_append, List.map_map, List.map_cons, List.map_nil]
  congr 1
  refine List.map_congr_left fun d _ => ?_
  by_cases hd : d.name = doc.name <;> simp [hd, withActive]

/-- A store with pairwise-distinct ids holds at most one document with any
given id. -/
theorem filter_id_le_one (store : List Stage) (sid : Nat)
    (hnodup : (store.map (·.id)).Nodup) :
    (store.filter (fun d => d.id = sid)).length ≤ 1 := by
  induction store with
  | nil => simp
  | cons d ds ih =>
    rw [List.map_cons, List.nodup_cons] at hnodup
    by_cases hd : d.id = sid
    · have hnil : ds.filter (fun x => x.id = sid) = [] := by
        rw [List.filter_eq_nil_iff]
        intro x hx
        simp only [decide_eq_true_eq]
        intro hxid
        exact hnodup.1 (by
          rw [hd, ← hxid]
          exact List.mem_map.mpr ⟨x, hx, rfl⟩)
      simp [List.filter_cons, hd, hnil]
    · simpa [List.filter_cons, hd] using ih hnodup.2

/-- The revert rewrite keeps at most one document of the target name active:
only documents carrying the reverted id stay active. -/
theorem countActive_revert_self (store : List Stage) (tname : String) (sid : Nat)
    (hnodup : (store.map (·.id)).Nodup) :
    countActive
        (store.map fun d => if d.name = tname then withActive d (d.id = sid) else d)
        tname ≤ 1 := by
  have hle : countActive
      (store.map fun d => if d.name = tname then withActive d (d.id = sid) else d)
      tname ≤ (store.filter (fun d => d.id = sid)).length := by
    induction store with
    | nil => simp [countActive]
    | cons d ds ih =>
      rw [List.map_cons] at hnodup ⊢
      rw [List.nodup_cons] at hnodup
      have ihds := ih hnodup.2
      by_cases hd : d.name = tname
      · by_cases hid : d.id = sid
        · simpa [countActive, List.filter_cons, hd, hid, withActive] using ihds
        · simpa [countActive, List.filter_cons, hd, hid, withActive] using ihds
      · have : (d :: ds).filter (fun x => x.id = sid)
            = if d.id = sid then d :: ds.filter (fun x => x.id = sid)
              else ds.filter (fun x => x.id = sid) := by
          by_cases hid : d.id = sid <;> simp [List.filter_cons, hid]
        rw [this]
        by_cases hid : d.id = sid
        · simp only [if_pos hid, List.length_cons]
          calc countActive _ tname ≤ (ds.filter (fun x => x.id = sid)).length := by
                simpa [countActive, List.filter_cons, hd] using ihds
            _ ≤ _ := Nat.le_succ _
        · simpa [countActive, List.filter_cons, hd, hid] using ihds
  exact hle.trans (filter_id_le_one store sid hnodup)

/-- The revert rewrite does not change the active count of any other name. -/
theorem countActive_revert_ne (store : List Stage) (tname : String) (sid : Nat)
    (n : String) (h : n ≠ tname) :
    countActive
        (store.map fun d => if d.name = tname then withActive d (d.id = sid) else d) n
      = countActive store n := by
  induction store with
  | nil => rfl
  | cons d ds ih =>
    simp only [countActive, List.map_cons, List.filter_cons] at ih ⊢
    by_cases hd : d.name = tname
    · have hdn : ¬(d.name = n) := by rw [hd]; exact fun he => h he.symm
      have htn : ¬(tname = n) := fun he => h he.symm
      simp only [withActive] at ih
      simpa [hd, withActive, hdn, htn] using ih
    · simp only [if_neg hd]
      split
      · simp [ih]
      · exact ih

/-- Every operation preserves the store invariant: ids are exactly
`0, …, length−1` and every name has at most one active document. -/
theorem applyOp_inv (store : List Stage) (op : StageOp)
    (hids : store.map (·.id) = List.range store.length)
    (hcnt : ∀ n, countActive store n ≤ 1) :
    (applyOp store op).map (·.id) = List.range (applyOp store op).length ∧
    (∀ n, countActive (applyOp store op) n ≤ 1) := by
  have hsave : ∀ doc : Stage,
      (save_stage_to_mongodb store doc).map (·.id)
          = List.range (save_stage_to_mongodb store doc).length ∧
      (∀ n, countActive (save_stage_to_mongodb store doc) n ≤ 1) := by
    intro doc
    constructor
    · rw [map_id_save, hids]
      have hlen : (save_stage_to_mongodb store doc).length = store.length + 1 := by
        simp [save_stage_to_mongodb]
      rw [hlen, List.range_succ]
    · intro n
      exact countActive_save store doc n (hcnt n)
  cases op with
  | bake s uri version tools now username =>
    rw [applyOp, bakeStage]
    cases handleSubmit s uri version tools now username with
    | none => exact ⟨hids, hcnt⟩
    | some form => exact hsave (stageOfForm form)
  | push s stageData now username =>
    rw [applyOp, pushStage]
    cases handlePush s stageData now username with
    | none => exact ⟨hids, hcnt⟩
    | some doc => exact hsave doc
  | revert stageId =>
    rw [applyOp, revert_stage]
    cases hfind : store.find? (fun d => d.id = stageId) with
    | none => exact ⟨hids, hcnt⟩
    | some target =>
      have hnodup : (store.map (·.id)).Nodup := by
        rw [hids]; exact List.nodup_range store.length
      constructor
      · have : (store.map fun d =>
            if d.name = target.name then withActive d (d.id = stageId) else d).map (·.id)
            = store.map (·.id) := by
          rw [List.map_map]
          refine List.map_congr_left fun d _ => ?_
          by_cases hd : d.name = target.name <;> simp [hd, withActive]
        simp only [this, List.length_map, hids]
      · intro n
        by_cases hn : n = target.name
        · subst hn
          exact countActive_revert_self store target.name stageId hnodup
        · rw [countActive_revert_ne store target.name stageId n hn]
          exact hcnt n

/-- C1: starting from an empty store, any sequence of bake, push, and revert
operations leaves at most one active document per stage name; moreover the
persistence step underlying both bake and push inserts its new document with
`active = true` and deactivates every sibling sharing the target name — among
the stored documents with the target name, only the newly created one can be
active. -/
theorem at_most_one_active_per_name (ops : List StageOp) (n : String) :
    countActive (applyOps ops) n ≤ 1 ∧
    (∀ (store : List Stage) (doc e : Stage), doc.active = true →
      e ∈ save_stage_to_mongodb store doc → e.name = doc.name → e.active = true →
      e = { doc with id := store.length }) := by
  constructor
  · have hfold : ∀ (l : List StageOp) (store : List Stage),
        store.map (·.id) = List.range store.length →
        (∀ m, countActive store m ≤ 1) →
        (∀ m, countActive (l.foldl applyOp store) m ≤ 1) := by
      intro l
      induction l with
      | nil => intro store _ hcnt m; exact hcnt m
      | cons op rest ih =>
        intro store hids hcnt m
        have h1 := applyOp_inv store op hids hcnt
        exact ih (applyOp store op) h1.1 h1.2 m
    exact hfold ops [] (by simp) (by intro m; simp [countActive]) n
  · intro store doc e hact hmem hname heact
    rw [save_stage_to_mongodb] at hmem
    rcases List.mem_append.mp hmem with hm | hm
    · obtain ⟨d, hd, he⟩ := List.mem_map.mp hm
      by_cases hdn : d.name = doc.name
      · rw [if_pos hdn] at he
        rw [← he] at heact
        simp [withActive] at heact
      · rw [if_neg hdn] at he
        rw [← he] at hname
        exact absurd hname hdn
    · simpa using hm

/-- Witness for C1 on a concrete history: two bakes of `dev` followed by a
revert leave one active document, and in a concrete save only the new
document is active under its name. -/
theorem at_most_one_active_per_name_witness :
    countActive (applyOps
        [.bake ⟨"dev", [], "", ""⟩ "/a" "1.0" [] "t1" "u",
         .bake ⟨"dev", [], "", ""⟩ "/a" "1.1" [] "t2" "u",
         .revert 0]) "dev" ≤ 1 ∧
    (⟨1, "dev", "/a", "1.1", "", "", [], [], "t2", "u", true⟩ : Stage) =
      { (⟨5, "dev", "/a", "1.1", "", "", [], [], "t2", "u", true⟩ : Stage) with
          id := ([⟨0, "dev", "/a", "1.0", "", "", [], [], "t1", "u", true⟩] :
            List Stage).length } :=
  ⟨(at_most_one_active_per_name
      [.bake ⟨"dev", [], "", ""⟩ "/a" "1.0" [] "t1" "u",
       .bake ⟨"dev", [], "", ""⟩ "/a" "1.1" [] "t2" "u",
       .revert 0] "dev").1,
   (at_most_one_active_per_name [] "dev").2
     [⟨0, "dev", "/a", "1.0", "", "", [], [], "t1", "u", true⟩]
     ⟨5, "dev", "/a", "1.1", "", "", [], [], "t2", "u", true⟩
     ⟨1, "dev", "/a", "1.1", "", "", [], [], "t2", "u", true⟩
     rfl (by decide) rfl rfl⟩

/-! ## C9 — cookie round-trip: percent-encoding lemmas -/

/-- Code points are below `0x110000`. -/
theorem char_toNat_lt (c : Char) : c.toNat < 0x110000 := by
  rcases c.valid with h | ⟨_, h2⟩
  · exact Nat.lt_trans h (by norm_num)
  · exact h2

/-- All UTF-8 bytes are below 256. -/
theorem utf8Bytes_lt_256 (c : Char) : ∀ b ∈ utf8Bytes c, b < 256 := by
  have hval := char_toNat_lt c
  intro b hb
  rw [utf8Bytes] at hb
  by_cases h1 : c.toNat < 0x80
  · rw [if_pos h1] at hb
    simp only [List.mem_singleton] at hb
    omega
  · rw [if_neg h1] at hb
    by_cases h2 : c.toNat < 0x800
    · rw [if_pos h2] at hb
      simp only [List.mem_cons, List.not_mem_nil, or_false] at hb
      rcases hb with hb | hb <;> omega
    · rw [if_neg h2] at hb
      by_cases h3 : c.toNat < 0x10000
      · rw [if_pos h3] at hb
        simp only [List.mem_cons, List.not_mem_nil, or_false] at hb
        rcases hb with hb | hb | hb <;> omega
      · rw [if_neg h3] at hb
        simp only [List.mem_cons, List.not_mem_nil, or_false] at hb
        rcases hb with hb | hb | hb | hb <;> omega

/-- Decoding a produced hex digit recovers the value. -/
theorem hexVal_hexDigit : ∀ x < 16, hexVal (hexDigit x) = some x := by
  decide

/-- Collecting bytes undoes one `%HH` encoding. -/
theorem collectBytes_percentByte (b : Nat) (rest : List Char) (hb : b < 256) :
    collectBytes (percentByte b ++ rest) = (collectBytes rest).map (b :: ·) := by
  have h1 : hexVal (hexDigit (b / 16)) = some (b / 16) := hexVal_hexDigit _ (by omega)
  have h2 : hexVal (hexDigit (b % 16)) = some (b % 16) := hexVal_hexDigit _ (by omega)
  rw [percentByte]
  show collectBytes ('%' :: hexDigit (b / 16) :: hexDigit (b % 16) :: rest) = _
  rw [collectBytes]
  rw [if_pos rfl, if_pos (by simp)]
  simp only [List.getD_cons_zero, List.getD_cons_succ, List.drop_succ_cons,
    List.drop_zero]
  rw [h1, h2]
  show (collectBytes rest).map (fun x => (16 * (b / 16) + b % 16) :: x) = _
  rw [Nat.div_add_mod]

/-- Collecting bytes undoes a sequence of `%HH` encodings. -/
theorem collectBytes_flatten_percent (bs : List Nat) (rest : List Char)
    (h : ∀ b ∈ bs, b < 256) :
    collectBytes ((bs.map percentByte).flatten ++ rest)
      = (collectBytes rest).map (bs ++ ·) := by
  induction bs with
  | nil => simp
  | cons b bs ih =>
    rw [List.map_cons, List.flatten_cons, List.append_assoc,
      collectBytes_percentByte b _ (h b (by simp)),
      ih (fun x hx => h x (by simp [hx])), Option.map_map]
    have hfun : ((fun x => b :: x) ∘ fun x => bs ++ x)
        = fun x => (b :: bs) ++ x := by
      funext l
      simp
    rw [hfun]

/-- Unreserved characters are ASCII and are not `%`, `;`, `=`, nor
whitespace. -/
theorem unreserved_props (c : Char) (h : isUriUnreserved c = true) :
    c.toNat < 0x80 ∧ c.toNat ≠ 37 ∧ c.toNat ≠ 59 ∧ c.toNat ≠ 61 ∧
      jsSpace c = false := by
  rw [isUriUnreserved, decide_eq_true_eq] at h
  simp only [List.mem_cons, List.not_mem_nil, or_false] at h
  have hn : c.toNat < 0x80 ∧ c.toNat ≠ 37 ∧ c.toNat ≠ 59 ∧ c.toNat ≠ 61 ∧
      c.toNat ≠ 32 ∧ c.toNat ≠ 9 ∧ c.toNat ≠ 10 ∧ c.toNat ≠ 13 := by omega
  refine ⟨hn.1, hn.2.1, hn.2.2.1, hn.2.2.2.1, ?_⟩
  have h32 : ¬(c = ' ') := fun he => hn.2.2.2.2.1 (by rw [he]; rfl)
  have h9 : ¬(c = '\t') := fun he => hn.2.2.2.2.2.1 (by rw [he]; rfl)
  have h10 : ¬(c = '\n') := fun he => hn.2.2.2.2.2.2.1 (by rw [he]; rfl)
  have h13 : ¬(c = '\r') := fun he => hn.2.2.2.2.2.2.2 (by rw [he]; rfl)
  rw [jsSpace]
  rw [decide_eq_false h32, decide_eq_false h9, decide_eq_false h10,
    decide_eq_false h13]
  rfl

/-- Collecting bytes undoes the encoding of one character. -/
theorem collectBytes_encodeChar (c : Char) (rest : List Char) :
    collectBytes (encodeChar c ++ rest)
      = (collectBytes rest).map (utf8Bytes c ++ ·) := by
  rw [encodeChar]
  by_cases h : isUriUnreserved c = true
  · rw [if_pos h]
    obtain ⟨hlt, h37, _, _, _⟩ := unreserved_props c h
    have hpc : ¬(c = '%') := fun he => h37 (by rw [he]; rfl)
    show collectBytes (c :: rest) = _
    rw [collectBytes]
    rw [if_neg hpc, utf8Bytes, if_pos hlt]
    have hfun : (fun x => c.toNat :: x) = fun x => [c.toNat] ++ x := by
      funext l
      simp
    rw [hfun]
  · rw [if_neg h]
    exact collectBytes_flatten_percent _ rest (utf8Bytes_lt_256 c)

/-- Collecting bytes of an encoded string yields its UTF-8 bytes. -/
theorem collectBytes_encodeList (cs : List Char) :
    collectBytes (encodeList cs) = some ((cs.map utf8Bytes).flatten) := by
  induction cs with
  | nil => simp [encodeList, collectBytes]
  | cons c cs ih =>
    have he : encodeList (c :: cs) = encodeChar c ++ encodeList cs := by
      simp [encodeList]
    rw [he, collectBytes_encodeChar, ih, Option.map_some', List.map_cons,
      List.flatten_cons]

/-- UTF-8 decoding undoes the byte encoding of one character. -/
theorem utf8Decode_utf8Bytes (c : Char) (rest : List Nat) :
    utf8Decode (utf8Bytes c ++ rest) = (utf8Decode rest).map (c :: ·) := by
  have hval : c.toNat < 0x110000 := char_toNat_lt c
  rw [utf8Bytes]
  by_cases h1 : c.toNat < 0x80
  · rw [if_pos h1]
    show utf8Decode (c.toNat :: rest) = _
    rw [utf8Decode]
    rw [if_pos h1, Char.ofNat_toNat]
  · rw [if_neg h1]
    by_cases h2 : c.toNat < 0x800
    · rw [if_pos h2]
      show utf8Decode ((0xC0 + c.toNat / 64) :: (0x80 + c.toNat % 64) :: rest) = _
      rw [utf8Decode]
      rw [if_neg (by omega), if_pos (by omega)]
      rw [if_pos (by
        simp only [List.length_cons, List.getD_cons_zero]
        omega)]
      simp only [List.getD_cons_zero, List.drop_succ_cons, List.drop_zero]
      have harg : (0xC0 + c.toNat / 64 - 0xC0) * 64 + (0x80 + c.toNat % 64 - 0x80)
          = c.toNat := by omega
      rw [harg, Char.ofNat_toNat]
    · rw [if_neg h2]
      by_cases h3 : c.toNat < 0x10000
      · rw [if_pos h3]
        show utf8Decode ((0xE0 + c.toNat / 4096) :: (0x80 + c.toNat / 64 % 64)
            :: (0x80 + c.toNat % 64) :: rest) = _
        rw [utf8Decode]
        rw [if_neg (by omega), if_neg (by omega), if_pos (by omega)]
        rw [if_pos (by
          simp only [List.length_cons, List.getD_cons_zero, List.getD_cons_succ]
          omega)]
        simp only [List.getD_cons_zero, List.getD_cons_succ, List.drop_succ_cons,
          List.drop_zero]
        have harg : (0xE0 + c.toNat / 4096 - 0xE0) * 4096
            + (0x80 + c.toNat / 64 % 64 - 0x80) * 64
            + (0x80 + c.toNat % 64 - 0x80) = c.toNat := by omega
        rw [harg, Char.ofNat_toNat]
      · rw [if_neg h3]
        show utf8Decode ((0xF0 + c.toNat / 262144) :: (0x80 + c.toNat / 4096 % 64)
            :: (0x80 + c.toNat / 64 % 64) :: (0x80 + c.toNat % 64) :: rest) = _
        rw [utf8Decode]
        rw [if_neg (by omega), if_neg (by omega), if_neg (by omega), if_pos (by omega)]
        rw [if_pos (by
          simp only [List.length_cons, List.getD_cons_zero, List.getD_cons_succ]
          omega)]
        simp only [List.getD_cons_zero, List.getD_cons_succ, List.drop_succ_cons,
          List.drop_zero]
        have harg : (0xF0 + c.toNat / 262144 - 0xF0) * 262144
            + (0x80 + c.toNat / 4096 % 64 - 0x80) * 4096
            + (0x80 + c.toNat / 64 % 64 - 0x80) * 64
            + (0x80 + c.toNat % 64 - 0x80) = c.toNat := by omega
        rw [harg, Char.ofNat_toNat]

/-- UTF-8 decoding undoes the byte encoding of a string. -/
theorem utf8Decode_flatten (cs : List Char) :
    utf8Decode ((cs.map utf8Bytes).flatten) = some cs := by
  induction cs with
  | nil => simp [utf8Decode]
  | cons c cs ih =>
    rw [List.map_cons, List.flatten_cons, utf8Decode_utf8Bytes, ih, Option.map_some']

/-- The percent-decoding round trip on char lists. -/
theorem decodeList_encodeList (cs : List Char) :
    decodeList (encodeList cs) = some cs := by
  rw [decodeList, collectBytes_encodeList, Option.some_bind, utf8Decode_flatten]

/-- C9 supporting fact: `decodeURIComponent` inverts `encodeURIComponent`. -/
theorem decode_encode_uri_component (s : String) :
    decodeURIComponent (encodeURIComponent s) = some s := by
  rw [decodeURIComponent, encodeURIComponent]
  show (decodeList (encodeList s.data)).map List.asString = some s
  rw [decodeList_encodeList, Option.map_some']
  cases s
  rfl

/-! ## C9 — cookie-jar parsing lemmas -/

/-- A list no element of which satisfies `p` survives `dropWhile`. -/
theorem dropWhile_eq_self_of_none (p : Char → Bool) (l : List Char)
    (h : ∀ c ∈ l, p c = false) : l.dropWhile p = l := by
  cases l with
  | nil => rfl
  | cons c cs => exact List.dropWhile_cons_of_neg (by simp [h c (by simp)])

/-- If `dropWhile` keeps a cons intact, its head fails the predicate. -/
theorem head_not_of_dropWhile_self (p : Char → Bool) (a : Char) (l : List Char)
    (h : (a :: l).dropWhile p = a :: l) : p a = false := by
  cases hpa : p a with
  | false => rfl
  | true =>
    rw [List.dropWhile_cons_of_pos hpa] at h
    have hlen := congrArg List.length h
    have hle := (List.dropWhile_suffix p (l := l)).length_le
    simp at hlen
    omega

/-- `dropWhile` keeps `A ++ c :: B` intact when it keeps `A` intact and `c`
fails the predicate. -/
theorem dropWhile_eq_self_append_cons (p : Char → Bool) (A : List Char) (c : Char)
    (B : List Char) (hA : A.dropWhile p = A) (hc : p c = false) :
    (A ++ c :: B).dropWhile p = A ++ c :: B := by
  cases A with
  | nil => exact List.dropWhile_cons_of_neg (by simp [hc])
  | cons a A2 =>
    have ha : p a = false := head_not_of_dropWhile_self p a A2 hA
    exact List.dropWhile_cons_of_neg (by simp [ha])

/-- A list whose trim is itself is kept intact by both trimming passes. -/
theorem trim_parts (l : List Char) (h : trimChars l = l) :
    l.dropWhile jsSpace = l ∧ dropRightSpace l = l := by
  rw [trimChars] at h
  have hsfx : l.dropWhile jsSpace <:+ l := List.dropWhile_suffix jsSpace
  have hpre : dropRightSpace (l.dropWhile jsSpace) <+: l.dropWhile jsSpace := by
    rw [dropRightSpace]
    rw [← List.reverse_suffix]
    simpa using List.dropWhile_suffix jsSpace (l := (l.dropWhile jsSpace).reverse)
  have hlen1 : (l.dropWhile jsSpace).length ≤ l.length := hsfx.length_le
  have hlen2 : (dropRightSpace (l.dropWhile jsSpace)).length
      ≤ (l.dropWhile jsSpace).length := hpre.length_le
  have hlen0 : (dropRightSpace (l.dropWhile jsSpace)).length = l.length := by
    rw [h]
  have hdw : l.dropWhile jsSpace = l :=
    hsfx.eq_of_length (by omega)
  refine ⟨hdw, ?_⟩
  rw [hdw] at h
  exact h

/-- Trimming keeps a well-formed `name=value` piece intact. -/
theorem trimChars_piece (nd vd : List Char) (hnd : nd.dropWhile jsSpace = nd)
    (hvd : dropRightSpace vd = vd) :
    trimChars (nd ++ '=' :: vd) = nd ++ '=' :: vd := by
  rw [trimChars]
  rw [dropWhile_eq_self_append_cons _ _ _ _ hnd (by decide)]
  rw [dropRightSpace]
  have hrev : (nd ++ '=' :: vd).reverse = vd.reverse ++ '=' :: nd.reverse := by
    simp
  rw [hrev]
  have hvr : vd.reverse.dropWhile jsSpace = vd.reverse := by
    have h2 := congrArg List.reverse hvd
    rw [dropRightSpace, List.reverse_reverse] at h2
    exact h2
  rw [dropWhile_eq_self_append_cons _ _ _ _ hvr (by decide)]
  simp

/-- Trimming absorbs a leading space. -/
theorem trimChars_cons_space (l : List Char) :
    trimChars (' ' :: l) = trimChars l := by
  rw [trimChars, trimChars, List.dropWhile_cons_of_pos (by decide)]

/-- `splitOnChar` never produces the empty list of pieces. -/
theorem splitOnChar_ne_nil (sep : Char) (l : List Char) :
    splitOnChar sep l ≠ [] := by
  cases l with
  | nil => simp [splitOnChar]
  | cons c rest =>
    rw [splitOnChar]
    by_cases h : c = sep
    · simp [h]
    · simp only [if_neg h]
      cases splitOnChar sep rest <;> simp

/-- Splitting at the first separator. -/
theorem splitOnChar_sep_append (sep : Char) (a l : List Char) (h : sep ∉ a) :
    splitOnChar sep (a ++ sep :: l) = a :: splitOnChar sep l := by
  induction a with
  | nil => simp [splitOnChar]
  | cons c a2 ih =>
    have hc : ¬(c = sep) := fun he => h (by simp [he])
    rw [List.cons_append, splitOnChar, if_neg hc, ih (fun hm => h (by simp [hm]))]

/-- A separator-free string is one piece. -/
theorem splitOnChar_no_sep (sep : Char) (a : List Char) (h : sep ∉ a) :
    splitOnChar sep a = [a] := by
  induction a with
  | nil => rfl
  | cons c a2 ih =>
    have hc : ¬(c = sep) := fun he => h (by simp [he])
    rw [splitOnChar, if_neg hc, ih (fun hm => h (by simp [hm]))]

/-- The empty piece never matches a `name=` pattern. -/
theorem startsWithList_nil_pattern (a : List Char) (x : Char) :
    startsWithList [] (a ++ [x]) = false := by
  cases a <;> rfl

/-- A piece `a ++ '=' :: v` starts with `b ++ "="` exactly when `a = b`,
provided neither `a` nor `b` contains `=`. -/
theorem startsWith_name_pattern (a : List Char) (v : List Char) (b : List Char)
    (ha : '=' ∉ a) (hb : '=' ∉ b) :
    (startsWithList (a ++ '=' :: v) (b ++ ['=']) = true) ↔ a = b := by
  induction a generalizing b with
  | nil =>
    cases b with
    | nil => simp [startsWithList]
    | cons d b2 =>
      have hd : ¬('=' = d) := fun he => hb (by simp [← he])
      simp [startsWithList, hd]
  | cons c a2 ih =>
    cases b with
    | nil =>
      have hc : ¬(c = '=') := fun he => ha (by simp [he])
      simp [startsWithList, hc]
    | cons d b2 =>
      have ha2 : '=' ∉ a2 := fun hm => ha (by simp [hm])
      have hb2 : '=' ∉ b2 := fun hm => hb (by simp [hm])
      rw [List.cons_append, List.cons_append]
      show (decide (c = d) && startsWithList (a2 ++ '=' :: v) (b2 ++ ['='])) = true ↔ _
      by_cases hcd : c = d
      · simp [hcd, ih b2 ha2 hb2]
      · simp [hcd]

/-- Strings with equal character data are equal. -/
theorem string_data_inj (s t : String) : s.data = t.data ↔ s = t := by
  constructor
  · intro h
    cases s
    cases t
    simp only at h
    rw [h]
  · intro h
    rw [h]

/-- Dropping the `name=` prefix of a piece recovers the value. -/
theorem drop_name_piece (a v : List Char) :
    (a ++ '=' :: v).drop (a.length + 1) = v := by
  have hsh : a ++ '=' :: v = (a ++ ['=']) ++ v := by simp
  have hlen : (a ++ ['=']).length = a.length + 1 := by simp
  rw [hsh, ← hlen, List.drop_left]

/-- `getCookie` against the rendered jar is lookup by cookie name followed by
decoding, for well-formed jars and a trimmed, separator-free name. -/
theorem getCookie_renderJar (name : String) (hn1 : '=' ∉ name.data)
    (jar : List (String × String))
    (hwf : ∀ e ∈ jar, WfEntry e) :
    getCookie name (renderJar jar)
      = (jar.find? (fun e => e.1 = name)).bind
          (fun e => (decodeList e.2.data).map List.asString) := by
  induction jar with
  | nil =>
    show getCookie name "" = none
    simp only [getCookie]
    have hsplit : splitOnChar ';' (("" : String).data) = [[]] := rfl
    rw [hsplit]
    have hpred : startsWithList (trimChars []) (name.data ++ ['=']) = false := by
      have ht : trimChars ([] : List Char) = [] := rfl
      rw [ht, startsWithList_nil_pattern]
    have hfind : List.find?
        (fun c => startsWithList (trimChars c) (name.data ++ ['='])) [[]] = none := by
      rw [@List.find?_cons_of_neg _
        (fun c => startsWithList (trimChars c) (name.data ++ ['='])) [] []
        (by simp [hpred]), List.find?_nil]
    rw [hfind]
  | cons e rest ih =>
    obtain ⟨n, v⟩ := e
    obtain ⟨hwn, hwne, hwns, hwvs, hwvt⟩ := hwf (n, v) (by simp)
    have hwfrest : ∀ x ∈ rest, WfEntry x := fun x hx => hwf x (by simp [hx])
    have hnd : n.data.dropWhile jsSpace = n.data := (trim_parts _ hwn).1
    have hvd : dropRightSpace v.data = v.data := (trim_parts _ hwvt).2
    have htrim := trimChars_piece n.data v.data hnd hvd
    have hpiece_nosemi : ';' ∉ n.data ++ '=' :: v.data := by
      simp only [List.mem_append, List.mem_cons]
      rintro (h | h | h)
      · exact hwns h
      · cases h
      · exact hwvs h
    have hmatch : (startsWithList (trimChars (n.data ++ '=' :: v.data))
        (name.data ++ ['=']) = true) ↔ n = name := by
      rw [htrim, startsWith_name_pattern _ _ _ hwne hn1, string_data_inj]
    have hjarpos : n = name → ((n, v) :: rest).find? (fun e => e.1 = name)
        = some (n, v) := fun hname =>
      @List.find?_cons_of_pos _ (fun e => decide (e.1 = name)) (n, v) rest
        (by simp [hname])
    have hjarneg : ¬(n = name) → ((n, v) :: rest).find? (fun e => e.1 = name)
        = rest.find? (fun e => e.1 = name) := fun hname =>
      @List.find?_cons_of_neg _ (fun e => decide (e.1 = name)) (n, v) rest
        (by simp [hname])
    cases rest with
    | nil =>
      have hdata : (renderJar [(n, v)]).data = n.data ++ '=' :: v.data := by
        show (n ++ "=" ++ v).data = _
        simp [String.data_append]
      simp only [getCookie, hdata, splitOnChar_no_sep ';' _ hpiece_nosemi]
      by_cases hname : n = name
      · have hfind : List.find?
            (fun c => startsWithList (trimChars c) (name.data ++ ['=']))
            [n.data ++ '=' :: v.data] = some (n.data ++ '=' :: v.data) :=
          @List.find?_cons_of_pos _
            (fun c => startsWithList (trimChars c) (name.data ++ ['=']))
            (n.data ++ '=' :: v.data) [] (hmatch.mpr hname)
        rw [hfind, hjarpos hname]
        show Option.map List.asString (decodeList (List.drop (name.data.length + 1)
            (trimChars (n.data ++ '=' :: v.data))))
          = (some (n, v)).bind fun e => Option.map List.asString (decodeList e.2.data)
        rw [htrim]
        have hnd2 : n.data = name.data := (string_data_inj n name).mpr hname
        rw [← hnd2, drop_name_piece, Option.some_bind]
      · have hfind : List.find?
            (fun c => startsWithList (trimChars c) (name.data ++ ['=']))
            [n.data ++ '=' :: v.data] = none := by
          rw [@List.find?_cons_of_neg _
            (fun c => startsWithList (trimChars c) (name.data ++ ['=']))
            (n.data ++ '=' :: v.data) [] (by simp [hmatch, hname]), List.find?_nil]
        rw [hfind, hjarneg hname, List.find?_nil]
        rfl
    | cons r rs =>
      have hrender : renderJar ((n, v) :: r :: rs)
          = n ++ "=" ++ v ++ "; " ++ renderJar (r :: rs) := rfl
      have hdata : (renderJar ((n, v) :: r :: rs)).data
          = (n.data ++ '=' :: v.data) ++ ';' :: (' ' :: (renderJar (r :: rs)).data) := by
        rw [hrender]
        simp [String.data_append]
      obtain ⟨h0, t0, hsp⟩ : ∃ h0 t0,
          splitOnChar ';' ((renderJar (r :: rs)).data) = h0 :: t0 := by
        cases hs : splitOnChar ';' ((renderJar (r :: rs)).data) with
        | nil => exact absurd hs (splitOnChar_ne_nil ';' _)
        | cons h0 t0 => exact ⟨h0, t0, rfl⟩
      have hspace : splitOnChar ';' (' ' :: (renderJar (r :: rs)).data)
          = (' ' :: h0) :: t0 := by
        rw [splitOnChar, if_neg (by decide), hsp]
      have hsplit : splitOnChar ';' ((renderJar ((n, v) :: r :: rs)).data)
          = (n.data ++ '=' :: v.data) :: (' ' :: h0) :: t0 := by
        rw [hdata, splitOnChar_sep_append ';' _ _ hpiece_nosemi, hspace]
      by_cases hname : n = name
      · have hfind : List.find?
            (fun c => startsWithList (trimChars c) (name.data ++ ['=']))
            ((n.data ++ '=' :: v.data) :: (' ' :: h0) :: t0)
            = some (n.data ++ '=' :: v.data) :=
          @List.find?_cons_of_pos _
            (fun c => startsWithList (trimChars c) (name.data ++ ['=']))
            (n.data ++ '=' :: v.data) ((' ' :: h0) :: t0) (hmatch.mpr hname)
        simp only [getCookie, hsplit]
        rw [hfind, hjarpos hname]
        show Option.map List.asString (decodeList (List.drop (name.data.length + 1)
            (trimChars (n.data ++ '=' :: v.data))))
          = (some (n, v)).bind fun e => Option.map List.asString (decodeList e.2.data)
        rw [htrim]
        have hnd2 : n.data = name.data := (string_data_inj n name).mpr hname
        rw [← hnd2, drop_name_piece, Option.some_bind]
      · rw [hjarneg hname, ← ih hwfrest]
        simp only [getCookie, hsplit, hsp]
        have hstep1 : List.find?
            (fun c => startsWithList (trimChars c) (name.data ++ ['=']))
            ((n.data ++ '=' :: v.data) :: (' ' :: h0) :: t0)
            = List.find? (fun c => startsWithList (trimChars c) (name.data ++ ['=']))
              ((' ' :: h0) :: t0) :=
          @List.find?_cons_of_neg _
            (fun c => startsWithList (trimChars c) (name.data ++ ['=']))
            (n.data ++ '=' :: v.data) ((' ' :: h0) :: t0) (by simp [hmatch, hname])
        rw [hstep1]
        by_cases hph : startsWithList (trimChars h0) (name.data ++ ['=']) = true
        · have hf1 : List.find?
              (fun c => startsWithList (trimChars c) (name.data ++ ['=']))
              ((' ' :: h0) :: t0) = some (' ' :: h0) :=
            @List.find?_cons_of_pos _
              (fun c => startsWithList (trimChars c) (name.data ++ ['=']))
              (' ' :: h0) t0 (by
                show startsWithList (trimChars (' ' :: h0)) (name.data ++ ['=']) = true
                rw [trimChars_cons_space]
                exact hph)
          have hf2 : List.find?
              (fun c => startsWithList (trimChars c) (name.data ++ ['=']))
              (h0 :: t0) = some h0 :=
            @List.find?_cons_of_pos _
              (fun c => startsWithList (trimChars c) (name.data ++ ['='])) h0 t0 hph
          rw [hf1, hf2]
          show Option.map List.asString (decodeList (List.drop (name.data.length + 1)
              (trimChars (' ' :: h0))))
            = Option.map List.asString (decodeList (List.drop (name.data.length + 1)
              (trimChars h0)))
          rw [trimChars_cons_space]
        · have hf1 : List.find?
              (fun c => startsWithList (trimChars c) (name.data ++ ['=']))
              ((' ' :: h0) :: t0)
              = List.find? (fun c => startsWithList (trimChars c) (name.data ++ ['='])) t0 :=
            @List.find?_cons_of_neg _
              (fun c => startsWithList (trimChars c) (name.data ++ ['=']))
              (' ' :: h0) t0 (by
                show ¬(startsWithList (trimChars (' ' :: h0))
                  (name.data ++ ['=']) = true)
                rw [trimChars_cons_space]
                simp [hph])
          have hf2 : List.find?
              (fun c => startsWithList (trimChars c) (name.data ++ ['=']))
              (h0 :: t0)
              = List.find? (fun c => startsWithList (trimChars c) (name.data ++ ['='])) t0 :=
            @List.find?_cons_of_neg _
              (fun c => startsWithList (trimChars c) (name.data ++ ['='])) h0 t0
              (by simp [hph])
          rw [hf1, hf2]

/-- Produced hex digits are benign: ASCII, not `;`, `=`, or whitespace. -/
theorem hexDigit_props (x : Nat) :
    hexDigit x ≠ ';' ∧ hexDigit x ≠ '=' ∧ jsSpace (hexDigit x) = false := by
  by_cases hx : x < 16
  · interval_cases x <;> exact (by decide)
  · rw [hexDigit, List.getD_eq_default]
    · decide
    · simp [hexDigits]
      omega

/-- Encoded output contains no `;`, no `=`, and no whitespace. -/
theorem encodeList_props (l : List Char) :
    ∀ c ∈ encodeList l, c ≠ ';' ∧ c ≠ '=' ∧ jsSpace c = false := by
  intro c hc
  rw [encodeList] at hc
  obtain ⟨piece, hpiece, hcp⟩ := List.mem_flatten.mp hc
  obtain ⟨x, _, hx⟩ := List.mem_map.mp hpiece
  rw [← hx, encodeChar] at hcp
  by_cases hu : isUriUnreserved x = true
  · rw [if_pos hu] at hcp
    simp only [List.mem_singleton] at hcp
    subst hcp
    obtain ⟨_, _, h59, h61, hws⟩ := unreserved_props c hu
    refine ⟨fun he => h59 (by rw [he]; rfl), fun he => h61 (by rw [he]; rfl), hws⟩
  · rw [if_neg hu] at hcp
    obtain ⟨piece2, hpiece2, hcp2⟩ := List.mem_flatten.mp hcp
    obtain ⟨b, _, hb⟩ := List.mem_map.mp hpiece2
    rw [← hb, percentByte] at hcp2
    simp only [List.mem_cons, List.not_mem_nil, or_false] at hcp2
    rcases hcp2 with hcp2 | hcp2 | hcp2
    · subst hcp2
      exact ⟨by decide, by decide, by decide⟩
    · subst hcp2
      exact hexDigit_props _
    · subst hcp2
      exact hexDigit_props _

/-- A whitespace-free list trims to itself. -/
theorem trimChars_of_no_space (l : List Char)
    (h : ∀ c ∈ l, jsSpace c = false) : trimChars l = l := by
  rw [trimChars, dropWhile_eq_self_of_none _ _ h, dropRightSpace,
    dropWhile_eq_self_of_none _ _ (fun c hc => h c (by simpa using hc)),
    List.reverse_reverse]

/-- `takeWhile`/`dropWhile` at the first `=`. -/
theorem takeWhile_until_eq (a x : List Char) (h : '=' ∉ a) :
    (a ++ '=' :: x).takeWhile (fun c => c ≠ '=') = a ∧
    (a ++ '=' :: x).dropWhile (fun c => c ≠ '=') = '=' :: x := by
  induction a with
  | nil => simp [List.takeWhile, List.dropWhile]
  | cons c a2 ih =>
    have hc : ¬(c = '=') := fun he => h (by simp [he])
    obtain ⟨iht, ihd⟩ := ih (fun hm => h (by simp [hm]))
    constructor
    · rw [List.cons_append, List.takeWhile_cons_of_pos (by simp [hc]), iht]
    · rw [List.cons_append, List.dropWhile_cons_of_pos (by simp [hc]), ihd]

/-- A string's char data turned back into a string is the string itself. -/
theorem asString_data (s : String) : s.data.asString = s := by
  cases s
  rfl

/-- Writing a cookie through the browser is an upsert of the encoded value,
for a trimmed, separator-free name. -/
theorem setCookie_eq_upsert (jar : List (String × String))
    (name value expires : String) (h1 : '=' ∉ name.data) (h2 : ';' ∉ name.data)
    (h3 : trimChars name.data = name.data) :
    setCookie jar name value expires
      = jarUpsert jar name (encodeURIComponent value) := by
  have hprops := encodeList_props value.data
  have hd : (name ++ "=" ++ encodeURIComponent value ++ ";" ++ expires
        ++ ";path=/").data
      = (name.data ++ '=' :: encodeList value.data)
        ++ ';' :: (expires ++ ";path=/").data := by
    show (name ++ "=" ++ String.mk (encodeList value.data) ++ ";" ++ expires
        ++ ";path=/").data = _
    simp [String.data_append]
  have hnosemi : ';' ∉ name.data ++ '=' :: encodeList value.data := by
    simp only [List.mem_append, List.mem_cons]
    rintro (h | h | h)
    · exact h2 h
    · cases h
    · exact (hprops ';' h).1 rfl
  have hsplit : splitOnChar ';' ((name ++ "=" ++ encodeURIComponent value ++ ";"
        ++ expires ++ ";path=/").data)
      = (name.data ++ '=' :: encodeList value.data)
        :: splitOnChar ';' ((expires ++ ";path=/").data) := by
    rw [hd]
    exact splitOnChar_sep_append ';' _ _ hnosemi
  obtain ⟨htake, hdrop⟩ :=
    takeWhile_until_eq name.data (encodeList value.data) h1
  rw [setCookie, browserSetCookie, hsplit]
  show jarUpsert jar
      (trimChars ((name.data ++ '=' :: encodeList value.data).takeWhile
        (fun c => c ≠ '='))).asString
      (trimChars (((name.data ++ '=' :: encodeList value.data).dropWhile
        (fun c => c ≠ '=')).drop 1)).asString = _
  rw [htake, hdrop, List.drop_one, List.tail_cons, h3,
    trimChars_of_no_space _ (fun c hc => (hprops c hc).2.2), asString_data]
  rfl

/-- Upserting makes the entry retrievable (first occurrence is replaced). -/
theorem find_jarUpsert (jar : List (String × String)) (n v : String) :
    (jarUpsert jar n v).find? (fun e => e.1 = n) = some (n, v) := by
  induction jar with
  | nil =>
    exact @List.find?_cons_of_pos _ (fun e => decide (e.1 = n)) (n, v) []
      (by simp)
  | cons e rest ih =>
    obtain ⟨n0, v0⟩ := e
    rw [jarUpsert]
    by_cases h0 : n0 = n
    · rw [if_pos h0]
      subst h0
      exact @List.find?_cons_of_pos _ (fun e => decide (e.1 = n0)) (n0, v) rest
        (by simp)
    · rw [if_neg h0]
      rw [@List.find?_cons_of_neg _ (fun e => decide (e.1 = n)) (n0, v0)
        (jarUpsert rest n v) (by simp [h0])]
      exact ih

/-- Upserting a well-formed entry preserves jar well-formedness. -/
theorem jarUpsert_wf (jar : List (String × String))
    (hwf : ∀ e ∈ jar, WfEntry e) (n v : String) (hv : WfEntry (n, v)) :
    ∀ e ∈ jarUpsert jar n v, WfEntry e := by
  induction jar with
  | nil =>
    intro e he
    simp only [jarUpsert, List.mem_singleton] at he
    subst he
    exact hv
  | cons e0 rest ih =>
    obtain ⟨n0, v0⟩ := e0
    intro e he
    rw [jarUpsert] at he
    by_cases h0 : n0 = n
    · rw [if_pos h0] at he
      rcases List.mem_cons.mp he with he | he
      · subst he
        obtain ⟨ha, hb, hc, _, _⟩ := hwf (n0, v0) (by simp)
        exact ⟨ha, hb, hc, hv.2.2.2.1, hv.2.2.2.2⟩
      · exact hwf e (by simp [he])
    · rw [if_neg h0] at he
      rcases List.mem_cons.mp he with he | he
      · subst he
        exact hwf (n0, v0) (by simp)
      · exact ih (fun x hx => hwf x (by simp [hx])) e he

/-- C9 (amended): for a cookie name containing no `=` or `;` and equal to
its own trim, reading the cookie back after writing it over any well-formed
jar returns exactly the written value — `encodeURIComponent` on write and
`decodeURIComponent` on read round-trip — and reading a name absent from a
well-formed jar returns null. -/
theorem getCookie_after_setCookie (jar : List (String × String))
    (hwf : ∀ e ∈ jar, WfEntry e) (name value expires : String)
    (h1 : '=' ∉ name.data) (h2 : ';' ∉ name.data)
    (h3 : trimChars name.data = name.data) :
    getCookie name (renderJar (setCookie jar name value expires)) = some value ∧
    ((∀ e ∈ jar, e.1 ≠ name) → getCookie name (renderJar jar) = none) := by
  constructor
  · rw [setCookie_eq_upsert jar name value expires h1 h2 h3]
    rw [getCookie_renderJar name h1 (jarUpsert jar name (encodeURIComponent value))
      (jarUpsert_wf jar hwf name (encodeURIComponent value)
        ⟨h3, h1, h2, fun hm => (encodeList_props value.data ';' hm).1 rfl,
          trimChars_of_no_space _
            (fun c hc => (encodeList_props value.data c hc).2.2)⟩)]
    rw [find_jarUpsert, Option.some_bind]
    show (decodeList (encodeList value.data)).map List.asString = some value
    rw [decodeList_encodeList, Option.map_some', asString_data]
  · intro habs
    rw [getCookie_renderJar name h1 jar hwf]
    have hnone : jar.find? (fun e => e.1 = name) = none := by
      rw [List.find?_eq_none]
      intro e he
      simp [habs e he]
    rw [hnone]
    rfl

/-- C9 counterexample: the round trip fails for a name carrying leading
whitespace (which contains neither `=` nor `;`): the browser stores the
cookie under the trimmed name, but `getCookie` searches for the untrimmed
`" a="` prefix against trimmed pieces and finds nothing. -/
theorem getCookie_whitespace_name_counterexample :
    ('=' ∉ (" a" : String).data ∧ ';' ∉ (" a" : String).data) ∧
    getCookie " a"
      (renderJar (setCookie [] " a" "v" "expires=Thu, 01 Jan 2026 00:00:00 GMT"))
      ≠ some "v" := by
  decide

/-- Witness for the amended C9 at a concrete jar, name, and value (the value
exercises the percent-encoding of a space and a non-ASCII character). -/
theorem getCookie_after_setCookie_witness :
    getCookie "user"
        (renderJar (setCookie [("theme", "Dark")] "user" "a é" "expires=X"))
      = some "a é" ∧
    getCookie "user" (renderJar [("theme", "Dark")]) = none := by
  have h := getCookie_after_setCookie [("theme", "Dark")] (by decide)
    "user" "a é" "expires=X" (by decide) (by decide) (by decide)
  exact ⟨h.1, h.2 (by decide)⟩
